import Mathlib

/-!
Verification of the FracLac measurement-extraction-and-aggregation pipeline.

A shallow embedding, in Lean 4, of the core of the two Jython scripts
`FracLacDataCombiner.py` and `FracLacPrep.py`:

* strings are modelled as `List Char` (Python byte/unicode strings over their
  character sequences); `str.strip`, `in`, `split`, slicing and
  `startswith` are modelled by executable functions below;
* the two regular-expression searches of `cleanFilename`
  (`re.search(r'(.+?_mask)\.?tif', s, re.IGNORECASE)` and
  `re.search(r'([^/\\]+\.tif)', s, re.IGNORECASE)`) are modelled by
  `search1` and `search2`, implementing the standard leftmost search with,
  respectively, lazy (`+?`: shortest first, start positions scanned left to
  right, `.` not matching a newline) and greedy (`+`: longest first)
  backtracking semantics;
* dictionaries are association lists in insertion order, with
  assignment `d[k] = v` modelled by `setF` (replace in place or append);
* rational numbers stand in for the floating-point arithmetic of the
  skeleton metrics (all claimed values are exactly representable).
-/

namespace FracLac

/-- Python whitespace for `str.strip` (space, tab, newline, carriage return,
vertical tab, form feed). -/
def pyIsSpace (c : Char) : Bool :=
  c == ' ' || c == '\t' || c == '\n' || c == '\r' || c == '\x0b' || c == '\x0c'

/-- Python `value.strip()`: drop trailing, then leading whitespace. -/
def pyStrip (s : List Char) : List Char :=
  ((s.reverse.dropWhile pyIsSpace).reverse).dropWhile pyIsSpace

/-- Python's substring test `pat in s` (contiguous substring). -/
def containsSub (s pat : List Char) : Bool :=
  match s with
  | [] => pat.isEmpty
  | _ :: rest => pat.isPrefixOf s || containsSub rest pat

/-- Python `s.split(pat)[0]`: the text before the first occurrence of `pat`
(the whole of `s` when `pat` does not occur). -/
def beforeFirst (s pat : List Char) : List Char :=
  match s with
  | [] => []
  | c :: rest => if pat.isPrefixOf s then [] else c :: beforeFirst rest pat

/-- Case-insensitive `startsWith` against an already-lowercased pattern,
as performed by `re.IGNORECASE` literal matching. -/
def ciStartsWith : List Char → List Char → Bool
  | _, [] => true
  | [], _ :: _ => false
  | c :: s, p :: ps => (c.toLower == p) && ciStartsWith s ps

/-- The literal `tif` (already lowercase). -/
def tif3 : List Char := ['t', 'i', 'f']

/-- The regex tail `\.?tif` (optional dot, then `tif`, case-insensitive)
matching at the head of `s`. -/
def tailTif (s : List Char) : Bool :=
  (match s with
   | c :: s' => c == '.' && ciStartsWith s' tif3
   | [] => false)
  || ciStartsWith s tif3

/-- The literal `_mask` of the first pattern (already lowercase). -/
def maskPat : List Char := ['_', 'm', 'a', 's', 'k']

/-- Test that `(.+?_mask)\.?tif` can complete at the head of `s`:
`_mask` (case-insensitive) followed by `\.?tif`. -/
def maskRest (s : List Char) : Bool :=
  ciStartsWith s maskPat && tailTif (s.drop 5)

/-- Lazy scan of `.+?` at a fixed start position: the argument list is the
text at the start; the scan consumes one character per step (each must not be
a newline, since `.` does not match `\n`), and after having consumed `l ≥ 1`
characters checks whether `_mask\.?tif` completes.  Returns the least such
`l`, or `none` when the scan falls off the end or hits a newline. -/
def lazySplitLen : List Char → Option Nat
  | [] => none
  | c :: s =>
    if c = '\n' then none
    else if maskRest s then some 1
    else (lazySplitLen s).map (· + 1)

/-- Model of `re.search` with pattern `(.+?_mask)\.?tif` (IGNORECASE): start positions are
tried left to right; at the first start admitting a match the lazy group is
shortest.  Returns `group(1)` (the `.+?` text together with the five
characters matching `_mask`, in their original case). -/
def search1 : List Char → Option (List Char)
  | [] => none
  | c :: s =>
    match lazySplitLen (c :: s) with
    | some l => some ((c :: s).take (l + 5))
    | none => search1 s

/-- Character class `[^/\\]`. -/
def notSlash (c : Char) : Bool := !(c == '/' || c == '\\')

/-- The literal `.tif` of the second pattern (already lowercase). -/
def tifDotPat : List Char := ['.', 't', 'i', 'f']

/-- Greedy backtracking of `[^/\\]+` before `\.tif`: within `run`, find the
largest `k ≤ n` with `1 ≤ k` such that `.tif` (case-insensitive) matches at
offset `k`. -/
def findTifDown (run : List Char) : Nat → Option Nat
  | 0 => none
  | k + 1 =>
    if ciStartsWith (run.drop (k + 1)) tifDotPat then some (k + 1)
    else findTifDown run k

/-- Model of `re.search` with pattern `([^/\\]+\.tif)` (IGNORECASE): start positions left to
right; at each start the greedy class consumes the maximal slash-free run and
backtracks to the last viable `.tif`.  Returns `group(1)` verbatim. -/
def search2 : List Char → Option (List Char)
  | [] => none
  | c :: s =>
    let run := (c :: s).takeWhile notSlash
    match findTifDown run (run.length - 4) with
    | some k => some (run.take (k + 4))
    | none => search2 s

/-- The suffix `'.tif'` appended to `match.group(1)` by `cleanFilename`. -/
def tifSuffix : List Char := ['.', 't', 'i', 'f']

/-- The marker list `['ImageDescription', 'Software', 'tifffile']`. -/
def markersList : List (List Char) :=
  ["ImageDescription".data, "Software".data, "tifffile".data]

/-- The `for marker in markers` loop of `cleanFilename`: when a marker occurs
(case-sensitively) in `u`, split before its first occurrence, keep the first
half of that prefix, and return a match of the first pattern on it, if any;
otherwise fall through to the next marker. -/
def markerLoop (u : List Char) : List (List Char) → Option (List Char)
  | [] => none
  | mk :: rest =>
    if containsSub u mk then
      match search1 ((beforeFirst u mk).take ((beforeFirst u mk).length / 2)) with
      | some g => some (g ++ tifSuffix)
      | none => markerLoop u rest
    else markerLoop u rest

/-- Model of `cleanFilename` of `FracLacDataCombiner.py` (lines 250–281): empty value →
`"unknown"`; otherwise strip, run the marker loop, then the direct
`(.+?_mask)\.?tif` search (+ `'.tif'`), then the `([^/\\]+\.tif)` search,
else `"unknown_" + value[:30]` (of the stripped value). -/
def cleanFilename (value : List Char) : List Char :=
  if value = [] then "unknown".data
  else
    let v := pyStrip value
    match markerLoop v markersList with
    | some r => r
    | none =>
      match search1 v with
      | some g => g ++ tifSuffix
      | none =>
        match search2 v with
        | some g => g
        | none => "unknown_".data ++ v.take 30

/-- One source row: raw header → raw value, in iteration order. -/
abbrev Row : Type := List (List Char × List Char)

/-- The scan test of `extractFilenameFromRow`:
`'_mask' in value_str.lower() or '.tif' in value_str.lower()`. -/
def scanToken (v : List Char) : Bool :=
  containsSub (v.map Char.toLower) "_mask".data ||
    containsSub (v.map Char.toLower) ".tif".data

/-- The resolution test of `extractFilenameFromRow`:
`result and not result.startswith("unknown")`. -/
def resolvesB (v : List Char) : Bool :=
  !(cleanFilename v).isEmpty && !("unknown".data.isPrefixOf (cleanFilename v))

/-- Model of `extractFilenameFromRow` of `FracLacDataCombiner.py` (lines 232–247):
first a header with prefix `1.`, else the first scanned value that carries a
mask/extension token and resolves to a non-`unknown` key, else `"unknown"`. -/
def extractFilenameFromRow (row : Row) : List Char :=
  match row.find? (fun kv => "1.".data.isPrefixOf kv.1) with
  | some kv => cleanFilename kv.2
  | none =>
    match row.find? (fun kv => scanToken kv.2 && resolvesB kv.2) with
    | some kv => cleanFilename kv.2
    | none => "unknown".data

/-! ## Dictionaries, the column map, and the record pipeline -/

/-- Dictionary lookup on an association list (`k in d` / `d[k]`). -/
def getF {α β : Type} [DecidableEq α] : List (α × β) → α → Option β
  | [], _ => none
  | (k', v') :: rest, k => if k' = k then some v' else getF rest k

/-- Dictionary assignment `d[k] = v`: replace in place, else append. -/
def setF {α β : Type} [DecidableEq α] : List (α × β) → α → β → List (α × β)
  | [], k, v => [(k, v)]
  | (k', v') :: rest, k, v =>
    if k' = k then (k', v) :: rest else (k', v') :: setF rest k v

/-- A specimen record: canonical field name → raw value. -/
abbrev Record : Type := List (String × List Char)

/-- The global record table: specimen key → record, in insertion order. -/
abbrev Table : Type := List (List Char × Record)

/-- Dictionary update `existing.update(incoming)`: assign each field of the incoming partial
record in turn. -/
def updateRec (r m : Record) : Record :=
  m.foldl (fun acc fv => setF acc fv.1 fv.2) r

/-- One step of the merge in `main` (lines 138–143): existing key → update its
record's fields individually; new key → insert the incoming record. -/
def mergeOne : Table → List Char → Record → Table
  | [], k, m => [(k, m)]
  | (k', r) :: rest, k, m =>
    if k' = k then (k', updateRec r m) :: rest else (k', r) :: mergeOne rest k m

/-- Merging one file's table into the global table (`allData`). -/
def mergeFolder (allData folderData : Table) : Table :=
  folderData.foldl (fun acc kr => mergeOne acc kr.1 kr.2) allData

/-- Folding every folder's extracted table into the run-wide table. -/
def combineAll (folderDatas : List Table) : Table :=
  folderDatas.foldl mergeFolder []

/-- The table `column_map` of `FracLacDataCombiner.py` (lines 48–66), in declared
order. -/
def columnMap : List (List Char × String) :=
  [("6.".data, "fractal_dimension"),
   ("87.".data, "lacunarity"),
   ("131.".data, "density"),
   ("132.".data, "span_ratio"),
   ("134.".data, "maximum_span_across_hull"),
   ("135.".data, "convex_hull_area"),
   ("136.".data, "convex_hull_perimeter"),
   ("137.".data, "convex_hull_circularity"),
   ("140.".data, "maximum_radius_from_hulls_centre_of_mass"),
   ("141.".data, "max_min_radii"),
   ("142.".data, "cv_for_all_radii"),
   ("143.".data, "mean_radius"),
   ("145.".data, "diameter_of_bounding_circle"),
   ("146.".data, "maximum_radius_from_circles_centre"),
   ("147.".data, "max_min_radii_from_circles_centre"),
   ("148.".data, "cv_for_all_radii_from_circles_centre"),
   ("149.".data, "mean_radius_from_circles_centre")]

/-- The `actualColumns` construction of `processFracLacFile` (lines 204–210)
over a given tail of `column_map`: for each `(pattern, name)` in order, bind
the first header starting with `pattern` via dictionary assignment
`actualColumns[col] = name`. -/
def buildColumns (fns : List (List Char)) :
    List (List Char × String) → List (List Char × String) → List (List Char × String)
  | acc, [] => acc
  | acc, (p, n) :: rest =>
    match fns.find? (fun col => p.isPrefixOf col) with
    | some col => buildColumns fns (setF acc col n) rest
    | none => buildColumns fns acc rest

/-- The map `actualColumns` for a header row. -/
def actualColumns (fns : List (List Char)) : List (List Char × String) :=
  buildColumns fns [] columnMap

/-- The same construction with plain appends in place of dictionary
assignment: the sequence of binding events.  Used to state that no header is
ever rebound. -/
def bindingEvents (fns : List (List Char)) :
    List (List Char × String) → List (List Char × String) → List (List Char × String)
  | acc, [] => acc
  | acc, (p, n) :: rest =>
    match fns.find? (fun col => p.isPrefixOf col) with
    | some col => bindingEvents fns (acc ++ [(col, n)]) rest
    | none => bindingEvents fns acc rest

/-- The literal `'Not Calculated'`. -/
def notCalculated : List Char := "Not Calculated".data

/-- Update the record stored at key `k` with `record[f] = v` (the key is
already present when this is invoked by the row loop). -/
def setTable : Table → List Char → String → List Char → Table
  | [], _, _, _ => []
  | (k', r) :: rest, k, f, v =>
    if k' = k then (k', setF r f v) :: rest else (k', r) :: setTable rest k f v

/-- The per-row body of `processFracLacFile` (lines 213–224): recover the key,
create `{'filename': key}` if absent, then assign every mapped, non-empty,
non-`'Not Calculated'`, non-blank value. -/
def processRow (cols : List (List Char × String)) (data : Table) (row : Row) : Table :=
  let k := extractFilenameFromRow row
  let d0 := if (getF data k).isSome then data else data ++ [(k, [("filename", k)])]
  cols.foldl
    (fun acc cn =>
      match getF row cn.1 with
      | some v =>
        if v ≠ [] ∧ v ≠ notCalculated ∧ pyStrip v ≠ [] then setTable acc k cn.2 v
        else acc
      | none => acc)
    d0

/-- Model of `processFracLacFile` (lines 195–229): the rows successfully delivered by
the reader are folded into a fresh table.  The whole body runs inside
`try/except`; `failed = true` stands for the reader raising after `rows` were
read, in which case the `except` handler logs and `return data` still returns
the accumulated table. -/
def processFracLacFile (fns : List (List Char)) (rows : List Row) (failed : Bool) :
    Table :=
  (rows.foldl (processRow (actualColumns fns)) []) |> fun data =>
    match failed with
    | true => data   -- `except Exception as e: print(...); return data`
    | false => data

/-! ## Skeleton metric assembly (`FracLacPrep.py`, `analyzeSkeleton`) -/

/-- Outcome of `result.getAverageBranchLength()`: `.error ()` – the call
raised; `.ok none` – it returned `None` or an empty array; `.ok (some v)` –
it reported `v` for skeleton index 0. -/
abbrev AvgReport : Type := Except Unit (Option ℚ)

/-- Lines 362–375: the reported value if the call returns one, `0.0` when it
returns none, and on an exception the manual fallback
`(numSlabVoxels * pixelSize) / float(numBranches)` guarded by
`numBranches > 0 and numSlabVoxels > 0`, else `0.0`. -/
def avgBranchLength (report : AvgReport) (numBranches numSlabVoxels : ℕ)
    (pixelSize : ℚ) : ℚ :=
  match report with
  | .ok (some v) => v
  | .ok none => 0
  | .error _ =>
    if 0 < numBranches ∧ 0 < numSlabVoxels then
      ((numSlabVoxels : ℚ) * pixelSize) / (numBranches : ℚ)
    else 0

/-- Lines 439–442: `skeletonArea / maskArea` when `maskArea > 0`, else `0`. -/
def branchingDensity (skeletonArea maskArea : ℚ) : ℚ :=
  if 0 < maskArea then skeletonArea / maskArea else 0

/-- The regex class `\d`. -/
def isDigitC (c : Char) : Bool := '0' ≤ c && c ≤ '9'

/-- The regex class `[3-8]`. -/
def isThreeToEight (c : Char) : Bool := '3' ≤ c && c ≤ '8'

/-- The whole of `t` matches `_area[3-8]\d{2}_mask\.tif` (a fixed 17-character
suffix). -/
def areaSuffix1 (t : List Char) : Bool :=
  match t with
  | a :: b :: c :: d :: e :: d1 :: d2 :: d3 :: rest =>
    [a, b, c, d, e] = "_area".data && isThreeToEight d1 && isDigitC d2 &&
      isDigitC d3 && rest = "_mask.tif".data
  | _ => false

/-- The whole of `t` matches `_area\d+_mask\.tif`. -/
def areaSuffix2 (t : List Char) : Bool :=
  "_area".data.isPrefixOf t &&
    (let ds := (t.drop 5).takeWhile isDigitC
     !ds.isEmpty && (t.drop 5).drop ds.length = "_mask.tif".data)

/-- Model of an anchored-suffix `re.sub(pat, '', b)` for a suffix pattern `m`: remove the
matched suffix (the match, if any, is unique for the three patterns used),
else return `b` unchanged.  `m` decides whether the tail starting at the
current position matches to the end. -/
def stripSuffix (m : List Char → Bool) : List Char → Option (List Char)
  | [] => none
  | c :: rest =>
    if m (c :: rest) then some [] else (stripSuffix m rest).map (c :: ·)

/-- Apply `stripSuffix` like `re.sub`, returning `b` unchanged on no match. -/
def subSuffix (m : List Char → Bool) (b : List Char) : List Char :=
  match stripSuffix m b with
  | some p => p
  | none => b

/-- The whole of `t` equals `_mask.tif`. -/
def maskTifSuffix (t : List Char) : Bool := t = "_mask.tif".data

/-- Python `s.endswith(pat)`. -/
def pyEndsWith (s pat : List Char) : Bool := pat.reverse.isPrefixOf s.reverse

/-- Cell-name extraction of `analyzeSkeleton` (lines 317–326): strip
`_area[3-8]\d{2}_mask\.tif$`; if unchanged, strip `_area\d+_mask\.tif$`; if
still unchanged or the result ends in `_mask`, strip only
`_mask\.tif$` from the original name. -/
def cellName (baseName : List Char) : List Char :=
  let n1 := subSuffix areaSuffix1 baseName
  let n2 := if n1 = baseName then subSuffix areaSuffix2 baseName else n1
  if n2 = baseName ∨ pyEndsWith n2 "_mask".data then subSuffix maskTifSuffix baseName
  else n2

/-- Modelled from the spec: the cell-name cascade exactly as §4.5 words it
(rule 1, else rule 2, else rule 3, else unchanged), without the code's extra
`endswith('_mask')` override.  Used only to compare the claim's cascade with
the code's. -/
def specCellName (baseName : List Char) : List Char :=
  let n1 := subSuffix areaSuffix1 baseName
  if n1 ≠ baseName then n1
  else
    let n2 := subSuffix areaSuffix2 baseName
    if n2 ≠ baseName then n2
    else subSuffix maskTifSuffix baseName

/-! ## Output row order (`main`, lines 167–171) -/

/-- Python string `<`: lexicographic by code point. -/
def lexLe : List Char → List Char → Bool
  | [], _ => true
  | _ :: _, [] => false
  | a :: s, b :: t => if a = b then lexLe s t else decide (a.toNat < b.toNat)

/-- Insert into a `lexLe`-sorted list. -/
def insertKey (x : List Char) : List (List Char) → List (List Char)
  | [] => [x]
  | y :: rest => if lexLe x y then x :: y :: rest else y :: insertKey x rest

/-- Python `sorted(allData.keys())`. -/
def sortKeys : List (List Char) → List (List Char)
  | [] => []
  | x :: rest => insertKey x (sortKeys rest)

/-- The order in which `main` writes the combined CSV's rows: the sorted key
list of the final table. -/
def outputRowOrder (t : Table) : List (List Char) := sortKeys (t.map Prod.fst)

/-! ## Lemmas: case-insensitive matching -/

theorem ciStartsWith_append {s pat : List Char} (r : List Char)
    (h : ciStartsWith s pat = true) : ciStartsWith (s ++ r) pat = true := by
  induction pat generalizing s with
  | nil => cases s <;> simp [ciStartsWith]
  | cons p ps ih =>
    cases s with
    | nil => simp [ciStartsWith] at h
    | cons c s' =>
      simp only [ciStartsWith, Bool.and_eq_true, List.cons_append] at h ⊢
      exact ⟨h.1, ih h.2⟩

theorem ciStartsWith_length {s pat : List Char} (h : ciStartsWith s pat = true) :
    pat.length ≤ s.length := by
  induction pat generalizing s with
  | nil => simp
  | cons p ps ih =>
    cases s with
    | nil => simp [ciStartsWith] at h
    | cons c s' =>
      simp only [ciStartsWith, Bool.and_eq_true] at h
      have := ih h.2
      simp only [List.length_cons]
      omega

theorem ciStartsWith_take {pat : List Char} : ∀ (s : List Char) (k : Nat),
    pat.length ≤ k → ciStartsWith (s.take k) pat = ciStartsWith s pat := by
  induction pat with
  | nil => intro s k _; cases s <;> cases k <;> simp [ciStartsWith]
  | cons p ps ih =>
    intro s k hk
    cases s with
    | nil => simp
    | cons c s' =>
      cases k with
      | zero => simp at hk
      | succ k' =>
        simp only [List.take_succ_cons, ciStartsWith]
        rw [ih s' k' (by simpa using hk)]

theorem tailTif_append {s : List Char} (r : List Char) (h : tailTif s = true) :
    tailTif (s ++ r) = true := by
  cases s with
  | nil => simp [tailTif, ciStartsWith] at h
  | cons c s' =>
    simp only [tailTif, Bool.or_eq_true, Bool.and_eq_true, beq_iff_eq,
      List.cons_append] at h ⊢
    rcases h with h | h
    · exact Or.inl ⟨h.1, ciStartsWith_append r h.2⟩
    · exact Or.inr (by simpa using ciStartsWith_append r h)

theorem tailTif_take : ∀ (s : List Char) (k : Nat), 4 ≤ k →
    tailTif (s.take k) = tailTif s := by
  intro s k hk
  cases s with
  | nil => simp
  | cons c s' =>
    cases k with
    | zero => omega
    | succ k' =>
      simp only [List.take_succ_cons, tailTif]
      rw [ciStartsWith_take s' k' (by simp [tif3]; omega)]
      have : ciStartsWith (c :: s'.take k') tif3 = ciStartsWith ((c :: s').take (k' + 1)) tif3 := by
        simp [List.take_succ_cons]
      rw [this, ciStartsWith_take (c :: s') (k' + 1) (by simp [tif3]; omega)]

theorem maskRest_append {s : List Char} (r : List Char) (h : maskRest s = true) :
    maskRest (s ++ r) = true := by
  simp only [maskRest, Bool.and_eq_true] at h ⊢
  have h5 : 5 ≤ s.length := by simpa [maskPat] using ciStartsWith_length h.1
  constructor
  · exact ciStartsWith_append r h.1
  · rw [List.drop_append_of_le_length h5]
    exact tailTif_append r h.2

theorem maskRest_take (s : List Char) (k : Nat) (hk : 9 ≤ k) :
    maskRest (s.take k) = maskRest s := by
  simp only [maskRest]
  rw [ciStartsWith_take s k (by simp [maskPat]; omega)]
  rw [List.drop_take k 5 s, tailTif_take (s.drop 5) (k - 5) (by omega)]

theorem maskRest_congr {s t : List Char} (h : s.take 9 = t.take 9) :
    maskRest s = maskRest t := by
  rw [← maskRest_take s 9 (by omega), h, maskRest_take t 9 (by omega)]

theorem mask_no_overlap (s : List Char) (k : Nat) (hk1 : 1 ≤ k) (hk4 : k ≤ 4)
    (hA : ciStartsWith s maskPat = true)
    (hB : ciStartsWith (s.drop k) maskPat = true) : False := by
  rcases s with _ | ⟨c0, s⟩; · simp [ciStartsWith, maskPat] at hA
  rcases s with _ | ⟨c1, s⟩; · simp [ciStartsWith, maskPat] at hA
  rcases s with _ | ⟨c2, s⟩; · simp [ciStartsWith, maskPat] at hA
  rcases s with _ | ⟨c3, s⟩; · simp [ciStartsWith, maskPat] at hA
  rcases s with _ | ⟨c4, s⟩; · simp [ciStartsWith, maskPat] at hA
  simp only [ciStartsWith, maskPat, Bool.and_eq_true, beq_iff_eq] at hA
  obtain ⟨e0, e1, e2, e3, e4, -⟩ := hA
  have hk : k = 1 ∨ k = 2 ∨ k = 3 ∨ k = 4 := by omega
  rcases hk with rfl | rfl | rfl | rfl <;>
    simp only [List.drop_succ_cons, List.drop_zero, ciStartsWith, maskPat,
      Bool.and_eq_true, beq_iff_eq] at hB
  · rw [e1] at hB; exact absurd hB.1 (by decide)
  · rw [e2] at hB; exact absurd hB.1 (by decide)
  · rw [e3] at hB; exact absurd hB.1 (by decide)
  · rw [e4] at hB; exact absurd hB.1 (by decide)

/-! ## Lemmas: the lazy search `search1` -/

theorem lazySplitLen_spec : ∀ (t : List Char) (p : Nat), lazySplitLen t = some p →
    1 ≤ p ∧ maskRest (t.drop p) = true ∧
      ∀ q, 1 ≤ q → q < p → maskRest (t.drop q) = false := by
  intro t
  induction t with
  | nil => intro p h; simp [lazySplitLen] at h
  | cons c s ih =>
    intro p h
    simp only [lazySplitLen] at h
    by_cases hc : c = '\n'
    · simp [hc] at h
    · by_cases hm : maskRest s
      · simp only [if_neg hc, if_pos hm, Option.some.injEq] at h
        subst h
        exact ⟨le_refl 1, by simpa using hm, fun q h1 h2 => by omega⟩
      · simp only [if_neg hc, if_neg hm] at h
        rcases Option.map_eq_some'.mp h with ⟨p', hp', rfl⟩
        obtain ⟨hp1, hmask, hmin⟩ := ih p' hp'
        refine ⟨by omega, by simpa [List.drop_succ_cons] using hmask, ?_⟩
        intro q h1 h2
        cases q with
        | zero => omega
        | succ q' =>
          rw [List.drop_succ_cons]
          cases q' with
          | zero => simp only [List.drop_zero]; simpa using hm
          | succ q'' => exact hmin (q'' + 1) (by omega) (by omega)

theorem lazySplitLen_none_spec : ∀ (t : List Char), lazySplitLen t = none →
    ('\n' ∉ t) → ∀ q, 1 ≤ q → maskRest (t.drop q) = false := by
  intro t
  induction t with
  | nil => intro _ _ q _; simp [List.drop_nil]; decide
  | cons c s ih =>
    intro h hnl q hq
    have hc : ¬(c = '\n') := by
      intro hc; exact hnl (hc ▸ List.mem_cons_self c s)
    simp only [lazySplitLen, if_neg hc] at h
    by_cases hm : maskRest s
    · simp [hm] at h
    · simp only [if_neg hm] at h
      have hs : lazySplitLen s = none := by
        cases hh : lazySplitLen s
        · rfl
        · rw [hh] at h; simp at h
      cases q with
      | zero => omega
      | succ q' =>
        rw [List.drop_succ_cons]
        cases q' with
        | zero => simpa using hm
        | succ q'' =>
          exact ih hs (fun hmem => hnl (List.mem_cons_of_mem c hmem)) (q'' + 1) (by omega)

theorem lazySplitLen_intro : ∀ (t : List Char) (p : Nat), 1 ≤ p →
    maskRest (t.drop p) = true →
    (∀ q, 1 ≤ q → q < p → maskRest (t.drop q) = false) →
    (∀ c ∈ t.take p, c ≠ '\n') →
    lazySplitLen t = some p := by
  intro t
  induction t with
  | nil =>
    intro p hp hmask _ _
    rw [List.drop_nil] at hmask
    exact absurd hmask (by decide)
  | cons c s ih =>
    intro p hp hmask hmin htake
    cases p with
    | zero => omega
    | succ p' =>
      have hc : ¬(c = '\n') := by
        have := htake c (by simp [List.take_succ_cons])
        simpa using this
      simp only [lazySplitLen, if_neg hc]
      by_cases hm : maskRest s
      · have hp0 : p' = 0 := by
          by_contra hne
          have := hmin 1 (le_refl 1) (by omega)
          rw [List.drop_succ_cons, List.drop_zero] at this
          rw [this] at hm; exact absurd hm (by simp)
        subst hp0
        simp [hm]
      · have hp1 : 1 ≤ p' := by
          by_contra hne
          have hp0 : p' = 0 := by omega
          subst hp0
          rw [List.drop_succ_cons, List.drop_zero] at hmask
          exact hm (by simpa using hmask)
        rw [if_neg hm]
        have := ih p' hp1 (by simpa [List.drop_succ_cons] using hmask)
          (fun q h1 h2 => by
            have := hmin (q + 1) (by omega) (by omega)
            simpa [List.drop_succ_cons] using this)
          (fun d hd => htake d (by simp [List.take_succ_cons]; exact Or.inr hd))
        rw [this]; rfl

theorem search1_no_newline : ∀ (t : List Char), ('\n' ∉ t) →
    search1 t = (lazySplitLen t).map (fun l => t.take (l + 5)) := by
  intro t
  induction t with
  | nil => intro _; rfl
  | cons c s ih =>
    intro hnl
    simp only [search1]
    cases h : lazySplitLen (c :: s) with
    | some l => rfl
    | none =>
      have hc : ¬(c = '\n') := fun hc => hnl (hc ▸ List.mem_cons_self c s)
      simp only [lazySplitLen, if_neg hc] at h
      by_cases hm : maskRest s
      · simp [hm] at h
      · simp only [if_neg hm] at h
        have hs : lazySplitLen s = none := by
          cases hh : lazySplitLen s
          · rfl
          · rw [hh] at h; simp at h
        rw [ih (fun hmem => hnl (List.mem_cons_of_mem c hmem)), hs]
        rfl

theorem lazySplitLen_append_isSome : ∀ (t r : List Char),
    (lazySplitLen t).isSome → (lazySplitLen (t ++ r)).isSome := by
  intro t r
  induction t with
  | nil => intro h; simp [lazySplitLen] at h
  | cons c s ih =>
    intro h
    simp only [lazySplitLen, List.cons_append, List.append_eq] at h ⊢
    by_cases hc : c = '\n'
    · simp [hc] at h
    · rw [if_neg hc] at h ⊢
      by_cases hm : maskRest (s ++ r)
      · simp [hm]
      · rw [if_neg hm]
        by_cases hms : maskRest s
        · exact absurd (maskRest_append r hms) hm
        · rw [if_neg hms] at h
          have : (lazySplitLen s).isSome := by
            cases hh : lazySplitLen s
            · rw [hh] at h; simp at h
            · rfl
          have := ih this
          cases hh : lazySplitLen (s ++ r)
          · rw [hh] at this; simp at this
          · simp

theorem search1_append_isSome : ∀ (t r : List Char),
    (search1 t).isSome → (search1 (t ++ r)).isSome := by
  intro t r
  induction t with
  | nil => intro h; simp [search1] at h
  | cons c s ih =>
    intro h
    simp only [search1, List.cons_append] at h ⊢
    cases hh : lazySplitLen (c :: s) with
    | some l =>
      have : (lazySplitLen (c :: (s ++ r))).isSome := by
        have := lazySplitLen_append_isSome (c :: s) r (by rw [hh]; rfl)
        simpa using this
      cases hh2 : lazySplitLen (c :: (s ++ r))
      · rw [hh2] at this; simp at this
      · simp
    | none =>
      rw [hh] at h
      cases hh2 : lazySplitLen (c :: (s ++ r))
      · exact ih h
      · simp

theorem search1_eq_none_of_append {t r : List Char}
    (h : search1 (t ++ r) = none) : search1 t = none := by
  cases hh : search1 t
  · rfl
  · have := search1_append_isSome t r (by rw [hh]; rfl)
    rw [h] at this; simp at this

/-! ## Lemmas: the greedy search `search2` -/

theorem findTifDown_spec : ∀ (run : List Char) (n k : Nat),
    findTifDown run n = some k →
    1 ≤ k ∧ k ≤ n ∧ ciStartsWith (run.drop k) tifDotPat = true := by
  intro run n
  induction n with
  | zero => intro k h; simp [findTifDown] at h
  | succ n' ih =>
    intro k h
    simp only [findTifDown] at h
    by_cases hcond : ciStartsWith (run.drop (n' + 1)) tifDotPat = true
    · rw [if_pos hcond] at h
      obtain rfl : n' + 1 = k := Option.some.inj h
      exact ⟨by omega, le_refl _, hcond⟩
    · rw [if_neg hcond] at h
      obtain ⟨h1, h2, h3⟩ := ih k h
      exact ⟨h1, by omega, h3⟩

theorem search2_some_spec : ∀ (t w : List Char), search2 t = some w →
    ∃ pre s, t = pre ++ s ∧
      ∃ k, findTifDown (s.takeWhile notSlash) ((s.takeWhile notSlash).length - 4) = some k ∧
        w = (s.takeWhile notSlash).take (k + 4) := by
  intro t
  induction t with
  | nil => intro w h; simp [search2] at h
  | cons c s' ih =>
    intro w h
    simp only [search2] at h
    cases hf : findTifDown ((c :: s').takeWhile notSlash)
        (((c :: s').takeWhile notSlash).length - 4) with
    | some k =>
      rw [hf] at h
      refine ⟨[], c :: s', rfl, k, hf, ?_⟩
      exact (Option.some.inj h).symm
    | none =>
      rw [hf] at h
      obtain ⟨pre, s, hs, hk⟩ := ih w h
      exact ⟨c :: pre, s, by simp [hs], hk⟩

/-! ## Lemmas: `pyStrip`, `beforeFirst` and the marker loop -/

theorem dropWhile_head_not (p : Char → Bool) :
    ∀ (l : List Char) (c : Char) (t : List Char),
      l.dropWhile p = c :: t → p c = false := by
  intro l
  induction l with
  | nil => intro c t h; simp at h
  | cons a l' ih =>
    intro c t h
    rw [List.dropWhile_cons] at h
    by_cases ha : p a
    · rw [if_pos ha] at h; exact ih c t h
    · rw [if_neg ha] at h
      obtain ⟨rfl, -⟩ := List.cons.inj h
      simpa using ha

theorem pyStrip_head_not_space {v : List Char} {c : Char} {t : List Char}
    (h : pyStrip v = c :: t) : pyIsSpace c = false :=
  dropWhile_head_not pyIsSpace _ c t h

theorem pyStrip_eq_self (X : List Char)
    (h1 : ∀ c t, X = c :: t → pyIsSpace c = false)
    (h2 : ∀ c, X.getLast? = some c → pyIsSpace c = false) :
    pyStrip X = X := by
  unfold pyStrip
  have hrev : X.reverse.dropWhile pyIsSpace = X.reverse := by
    cases hX : X.reverse with
    | nil => simp
    | cons d R =>
      have hd : X.getLast? = some d := by
        rw [← List.head?_reverse, hX]; rfl
      rw [List.dropWhile_cons, h2 d hd]; simp
  rw [hrev, List.reverse_reverse]
  cases hX : X with
  | nil => simp
  | cons c t => rw [List.dropWhile_cons, h1 c t hX]; simp

theorem beforeFirst_append_eq (u pat : List Char) :
    ∃ r, u = beforeFirst u pat ++ r := by
  induction u with
  | nil => exact ⟨[], rfl⟩
  | cons c rest ih =>
    by_cases hp : pat.isPrefixOf (c :: rest)
    · exact ⟨c :: rest, by simp [beforeFirst, hp]⟩
    · obtain ⟨r, hr⟩ := ih
      refine ⟨r, ?_⟩
      simp only [beforeFirst, if_neg hp, List.cons_append]
      exact congrArg (c :: ·) hr

theorem markerLoop_none_of_search1_none {u : List Char}
    (h : search1 u = none) : ∀ L, markerLoop u L = none := by
  intro L
  induction L with
  | nil => rfl
  | cons mk L' ih =>
    simp only [markerLoop]
    by_cases hct : containsSub u mk
    · rw [if_pos hct]
      have hnone : search1 ((beforeFirst u mk).take ((beforeFirst u mk).length / 2)) = none := by
        obtain ⟨r, hr⟩ := beforeFirst_append_eq u mk
        set B := beforeFirst u mk with hB
        have hsplit : u = B.take (B.length / 2) ++ (B.drop (B.length / 2) ++ r) := by
          rw [← List.append_assoc, List.take_append_drop, ← hr]
        exact search1_eq_none_of_append (hsplit ▸ h)
      rw [hnone]; exact ih
    · rw [if_neg hct]; exact ih

theorem markerLoop_none_of_no_markers {u : List Char} {L : List (List Char)}
    (h : ∀ mk ∈ L, containsSub u mk = false) : markerLoop u L = none := by
  induction L with
  | nil => rfl
  | cons mk L' ih =>
    simp only [markerLoop]
    rw [h mk (List.mem_cons_self mk L')]
    simp only [Bool.false_eq_true, if_false]
    exact ih fun m hm => h m (List.mem_cons_of_mem mk hm)

/-! ## Lemmas: `cleanFilename` branch equations -/

theorem cleanFilename_eq_A {v g : List Char} (h0 : v ≠ [])
    (hm : markerLoop (pyStrip v) markersList = none)
    (hs : search1 (pyStrip v) = some g) :
    cleanFilename v = g ++ tifSuffix := by
  simp [cleanFilename, h0, hm, hs]

theorem cleanFilename_eq_B {v g : List Char} (h0 : v ≠ [])
    (hm : markerLoop (pyStrip v) markersList = none)
    (hs1 : search1 (pyStrip v) = none)
    (hs2 : search2 (pyStrip v) = some g) :
    cleanFilename v = g := by
  simp [cleanFilename, h0, hm, hs1, hs2]

theorem cleanFilename_eq_unknown {v : List Char} (h0 : v ≠ [])
    (hs1 : search1 (pyStrip v) = none)
    (hs2 : search2 (pyStrip v) = none) :
    cleanFilename v = "unknown_".data ++ (pyStrip v).take 30 := by
  simp [cleanFilename, h0, markerLoop_none_of_search1_none hs1, hs1, hs2]

/-! ## Lemmas: stability of the recovered key under a second pass -/

theorem bandSplit {a b : Bool} (h : (a && b) = true) : a = true ∧ b = true := by
  simpa using h

theorem toLower_f_not_space (c : Char) (h : c.toLower = 'f') : pyIsSpace c = false := by
  by_contra hs
  have hs' : pyIsSpace c = true := by simpa using hs
  simp only [pyIsSpace, Bool.or_eq_true, beq_iff_eq] at hs'
  rcases hs' with ((((rfl | rfl) | rfl) | rfl) | rfl) | rfl <;> exact absurd h (by decide)

theorem search1_output_stable (u : List Char) (p : Nat)
    (hnl : '\n' ∉ u) (hp : lazySplitLen u = some p) :
    search1 (u.take (p + 5) ++ tifSuffix) = some (u.take (p + 5)) := by
  obtain ⟨hp1, hmask, hmin⟩ := lazySplitLen_spec u p hp
  obtain ⟨hciP, htailP⟩ := bandSplit hmask
  have h5len : 5 ≤ u.length - p := by
    have := ciStartsWith_length hciP
    simpa [maskPat, List.length_drop] using this
  have hple : p + 5 ≤ u.length := by omega
  have hlen : (u.take (p + 5)).length = p + 5 := by
    rw [List.length_take]; omega
  have hagree : ∀ m, m ≤ p + 5 →
      (u.take (p + 5) ++ tifSuffix).take m = u.take m := by
    intro m hm
    rw [List.take_append_of_le_length (show m ≤ (u.take (p + 5)).length by omega),
      List.take_take]
    congr 1; omega
  -- the designated split still completes
  have hmaskw : maskRest ((u.take (p + 5) ++ tifSuffix).drop p) = true := by
    have hdp : (u.take (p + 5) ++ tifSuffix).drop p = (u.drop p).take 5 ++ tifSuffix := by
      rw [List.drop_append_of_le_length (show p ≤ (u.take (p + 5)).length by omega),
        List.drop_take]
      have e55 : p + 5 - p = 5 := by omega
      rw [e55]
    rw [hdp]
    simp only [maskRest]
    rw [Bool.and_eq_true]
    constructor
    · have e : ciStartsWith ((u.drop p).take 5) maskPat = ciStartsWith (u.drop p) maskPat :=
        ciStartsWith_take (u.drop p) 5 (by simp [maskPat])
      exact ciStartsWith_append tifSuffix (by rw [e]; exact hciP)
    · have h5 : ((u.drop p).take 5).length = 5 := by
        rw [List.length_take, List.length_drop]; omega
      rw [List.drop_append_of_le_length (show 5 ≤ ((u.drop p).take 5).length by omega)]
      have hnil : ((u.drop p).take 5).drop 5 = [] := by
        apply List.drop_eq_nil_of_le; omega
      rw [hnil]
      decide
  -- no earlier split completes
  have hminw : ∀ q, 1 ≤ q → q < p →
      maskRest ((u.take (p + 5) ++ tifSuffix).drop q) = false := by
    intro q h1 h2
    by_cases hfar : q + 4 ≤ p
    · have e1 : ((u.take (p + 5) ++ tifSuffix).drop q).take 9 = (u.drop q).take 9 := by
        rw [List.drop_append_of_le_length (by omega), List.drop_take]
        have hl : ((u.drop q).take (p + 5 - q)).length = p + 5 - q := by
          rw [List.length_take, List.length_drop]; omega
        rw [List.take_append_of_le_length (by omega), List.take_take]
        congr 1; omega
      rw [maskRest_congr e1]
      exact hmin q h1 h2
    · by_contra hcon
      have hmr : maskRest ((u.take (p + 5) ++ tifSuffix).drop q) = true := by
        simpa using hcon
      have hciq := (bandSplit hmr).1
      have hcip := (bandSplit hmaskw).1
      have hdd : ((u.take (p + 5) ++ tifSuffix).drop q).drop (p - q)
          = (u.take (p + 5) ++ tifSuffix).drop p := by
        rw [List.drop_drop]; congr 1; omega
      exact mask_no_overlap _ (p - q) (by omega) (by omega) hciq (by rw [hdd]; exact hcip)
  have hchars : ∀ c ∈ (u.take (p + 5) ++ tifSuffix).take p, c ≠ '\n' := by
    intro c hc
    rw [hagree p (by omega)] at hc
    exact fun hcn => hnl (hcn ▸ List.take_subset _ _ hc)
  have hlz : lazySplitLen (u.take (p + 5) ++ tifSuffix) = some p :=
    lazySplitLen_intro _ p hp1 hmaskw hminw hchars
  obtain ⟨c, t, hct⟩ : ∃ c t, u.take (p + 5) ++ tifSuffix = c :: t := by
    cases hu : u.take (p + 5) ++ tifSuffix with
    | nil => rw [hu] at hlz; simp [lazySplitLen] at hlz
    | cons c t => exact ⟨c, t, rfl⟩
  rw [hct]
  simp only [search1]
  rw [← hct, hlz]
  simp only [← hct]
  rw [hagree (p + 5) (le_refl _)]

theorem ciStartsWith_tifDot_decomp {s : List Char}
    (h : ciStartsWith s tifDotPat = true) :
    ∃ c1 c2 c3 c4 rest, s = c1 :: c2 :: c3 :: c4 :: rest ∧
      c1.toLower = '.' ∧ c2.toLower = 't' ∧ c3.toLower = 'i' ∧ c4.toLower = 'f' := by
  rcases s with _ | ⟨c1, s⟩; · simp [ciStartsWith, tifDotPat] at h
  rcases s with _ | ⟨c2, s⟩; · simp [ciStartsWith, tifDotPat] at h
  rcases s with _ | ⟨c3, s⟩; · simp [ciStartsWith, tifDotPat] at h
  rcases s with _ | ⟨c4, s⟩; · simp [ciStartsWith, tifDotPat] at h
  simp only [ciStartsWith, tifDotPat, Bool.and_eq_true, beq_iff_eq] at h
  exact ⟨c1, c2, c3, c4, s, rfl, h.1, h.2.1, h.2.2.1, h.2.2.2.1⟩

theorem cleanFilename_fix_B (u g : List Char) (hnl : '\n' ∉ u)
    (h1 : search1 u = none) (h2 : search2 u = some g) :
    search1 g = none ∧ search2 g = some g ∧ g ≠ [] ∧
      ∃ c, g.getLast? = some c ∧ c.toLower = 'f' := by
  obtain ⟨pre, s, hus, k, hfind, hgw⟩ := search2_some_spec u g h2
  obtain ⟨hk1, hkle, hci⟩ := findTifDown_spec _ _ k hfind
  have hk4 : k + 4 ≤ (s.takeWhile notSlash).length := by
    have h4 := ciStartsWith_length hci
    rw [List.length_drop] at h4
    simp only [tifDotPat, List.length_cons, List.length_nil] at h4
    omega
  have hglen : g.length = k + 4 := by
    rw [hgw, List.length_take]; omega
  have hg_ne : g ≠ [] := by
    intro h; rw [h] at hglen; simp at hglen
  obtain ⟨c1, c2, c3, c4, rest, hrd, e1, e2, e3, e4⟩ := ciStartsWith_tifDot_decomp hci
  have hg4 : g = (s.takeWhile notSlash).take k ++ [c1, c2, c3, c4] := by
    rw [hgw, List.take_add]
    congr 1
    rw [hrd]; rfl
  have hlast : g.getLast? = some c4 := by
    rw [hg4, List.getLast?_append]; rfl
  have hg_sub_run : ∀ c ∈ g, c ∈ s.takeWhile notSlash := by
    rw [hgw]; intro c hc; exact List.take_subset _ _ hc
  have hg_in_u : ∀ c ∈ g, c ∈ u := by
    intro c hc
    rw [hus]
    apply List.mem_append_right
    rw [← List.takeWhile_append_dropWhile (p := notSlash) (l := s)]
    exact List.mem_append_left _ (hg_sub_run c hc)
  have hnlg : '\n' ∉ g := fun h => hnl (hg_in_u _ h)
  -- the first pattern still fails on the recovered key
  have hlzu : lazySplitLen u = none := by
    have hmap := search1_no_newline u hnl
    rw [h1] at hmap
    cases hh : lazySplitLen u
    · rfl
    · rw [hh] at hmap; simp at hmap
  have hlzg : lazySplitLen g = none := by
    cases hh : lazySplitLen g with
    | none => rfl
    | some l =>
      exfalso
      obtain ⟨hl1, hmr, -⟩ := lazySplitLen_spec g l hh
      have hx : u = pre ++ (g ++ (((s.takeWhile notSlash).drop (k + 4)) ++ s.dropWhile notSlash)) := by
        rw [hus]
        congr 1
        rw [hgw, ← List.append_assoc, List.take_append_drop, List.takeWhile_append_dropWhile]
      have hlq : l ≤ g.length := by
        have h5 := ciStartsWith_length (bandSplit hmr).1
        rw [List.length_drop] at h5
        simp only [maskPat, List.length_cons, List.length_nil] at h5
        omega
      have hmr2 : maskRest ((g ++ (((s.takeWhile notSlash).drop (k + 4)) ++ s.dropWhile notSlash)).drop l) = true := by
        rw [List.drop_append_of_le_length hlq]
        exact maskRest_append _ hmr
      have hmr3 : maskRest (u.drop (pre.length + l)) = true := by
        rw [hx, List.drop_append]
        exact hmr2
      have hnone := lazySplitLen_none_spec u hlzu hnl (pre.length + l) (by omega)
      simp [hmr3] at hnone
  have hs1g : search1 g = none := by
    rw [search1_no_newline g hnlg, hlzg]; rfl
  -- the second pattern returns the key itself
  have hallns : ∀ c' ∈ g, notSlash c' = true :=
    fun c' hc' => List.mem_takeWhile_imp (hg_sub_run c' hc')
  have hgdrop : ciStartsWith (g.drop k) tifDotPat = true := by
    have hdt : g.drop k = ((s.takeWhile notSlash).drop k).take 4 := by
      rw [hgw, List.drop_take]
      congr 1; omega
    rw [hdt, ciStartsWith_take _ 4 (by simp [tifDotPat])]
    exact hci
  obtain ⟨c, t, rfl⟩ : ∃ c t, g = c :: t := by
    cases g with
    | nil => exact absurd rfl hg_ne
    | cons c t => exact ⟨c, t, rfl⟩
  have hrun2 : (c :: t).takeWhile notSlash = c :: t :=
    List.takeWhile_eq_self_iff.mpr hallns
  have hfg : findTifDown (c :: t) ((c :: t).length - 4) = some k := by
    have hlen4 : (c :: t).length - 4 = k := by omega
    rw [hlen4]
    obtain ⟨k', rfl⟩ : ∃ k', k = k' + 1 := ⟨k - 1, by omega⟩
    simp only [findTifDown]
    rw [if_pos hgdrop]
  have hs2g : search2 (c :: t) = some (c :: t) := by
    simp only [search2]
    rw [hrun2, hfg]
    have htk : (c :: t).take (k + 4) = c :: t :=
      List.take_of_length_le (le_of_eq hglen)
    exact congrArg some htk
  exact ⟨hs1g, hs2g, hg_ne, c4, hlast, e4⟩

/-! ## Claim C3 (FilenameRecoverer idempotence) -/

/-- C3, counterexample.  `cleanFilename` is *not* idempotent for every
input: on `"/ a.tif"` the greedy `.tif` search starts after the slash and
returns `" a.tif"` (leading space preserved), but a second application strips
that space and returns `"a.tif"`.  (The `unknown` fallback path is likewise
not idempotent: `cleanFilename "" = "unknown"` while
`cleanFilename "unknown" = "unknown_unknown"`.) -/
theorem cleanFilename_not_idempotent :
    cleanFilename (cleanFilename "/ a.tif".data) ≠ cleanFilename "/ a.tif".data := by
  decide

/-- C3, amended.  `cleanFilename` is idempotent on every input on which
one of the two filename patterns matches, provided the stripped value
contains no newline and no metadata-marker substring, and the recovered key
neither begins with whitespace nor contains a metadata-marker substring.  On
the remaining inputs (the `unknown_*` fallback path, or a recovered key with
a leading space) a second application can change the key. -/
theorem cleanFilename_idempotent_on_matched (v : List Char) (h0 : v ≠ [])
    (hnl : '\n' ∉ pyStrip v)
    (hmk : ∀ mk ∈ markersList, containsSub (pyStrip v) mk = false)
    (hmatch : (search1 (pyStrip v)).isSome ∨ (search2 (pyStrip v)).isSome)
    (houtmk : ∀ mk ∈ markersList, containsSub (cleanFilename v) mk = false)
    (houthead : (cleanFilename v).head?.all (fun c => !pyIsSpace c) = true) :
    cleanFilename (cleanFilename v) = cleanFilename v := by
  set u := pyStrip v with hu
  have hmlu : markerLoop u markersList = none := markerLoop_none_of_no_markers hmk
  cases hs1 : search1 u with
  | some g =>
    obtain ⟨p, hp, hg⟩ : ∃ p, lazySplitLen u = some p ∧ g = u.take (p + 5) := by
      have hmap := search1_no_newline u hnl
      rw [hs1] at hmap
      cases hh : lazySplitLen u with
      | none => rw [hh] at hmap; simp at hmap
      | some p =>
        rw [hh] at hmap
        simp only [Option.map_some'] at hmap
        exact ⟨p, rfl, Option.some.inj hmap⟩
    subst hg
    have hcv : cleanFilename v = u.take (p + 5) ++ tifSuffix :=
      cleanFilename_eq_A h0 hmlu hs1
    have hs1w : search1 (u.take (p + 5) ++ tifSuffix) = some (u.take (p + 5)) :=
      search1_output_stable u p hnl hp
    have hwne : u.take (p + 5) ++ tifSuffix ≠ [] := by simp [tifSuffix]
    rw [hcv] at houtmk houthead
    have hstrip : pyStrip (u.take (p + 5) ++ tifSuffix) = u.take (p + 5) ++ tifSuffix := by
      apply pyStrip_eq_self
      · intro c t hct
        rw [hct] at houthead
        simpa using houthead
      · intro c hc
        rw [List.getLast?_append] at hc
        rw [show tifSuffix.getLast?.or ((u.take (p + 5)).getLast?) = some 'f' from rfl] at hc
        obtain rfl := Option.some.inj hc
        decide
    have hcw : cleanFilename (u.take (p + 5) ++ tifSuffix) = u.take (p + 5) ++ tifSuffix := by
      apply cleanFilename_eq_A hwne
      · rw [hstrip]; exact markerLoop_none_of_no_markers houtmk
      · rw [hstrip]; exact hs1w
    rw [hcv, hcw]
  | none =>
    cases hs2 : search2 u with
    | none =>
      rw [hs1, hs2] at hmatch
      simp at hmatch
    | some g =>
      have hcv : cleanFilename v = g := cleanFilename_eq_B h0 hmlu hs1 hs2
      obtain ⟨hg1, hg2, hgne, c4, hlast, hc4⟩ := cleanFilename_fix_B u g hnl hs1 hs2
      rw [hcv] at houtmk houthead
      have hstrip : pyStrip g = g := by
        apply pyStrip_eq_self
        · intro c t hct
          rw [hct] at houthead
          simpa using houthead
        · intro c hc
          rw [hlast] at hc
          obtain rfl := Option.some.inj hc
          exact toLower_f_not_space _ hc4
      have hcw : cleanFilename g = g := by
        apply cleanFilename_eq_B hgne
        · rw [hstrip]; exact markerLoop_none_of_no_markers houtmk
        · rw [hstrip]; exact hg1
        · rw [hstrip]; exact hg2
      rw [hcv, hcw]

/-- C3, witness for the amended theorem at the concrete input
`"xyz_mask.tif"`. -/
theorem cleanFilename_idempotent_on_matched_witness :
    cleanFilename (cleanFilename "xyz_mask.tif".data) = cleanFilename "xyz_mask.tif".data :=
  cleanFilename_idempotent_on_matched "xyz_mask.tif".data (by decide) (by decide)
    (by decide) (by decide) (by decide) (by decide)

/-! ## Claim C7 (marker example) -/

/-- C7.  On the exact value `"xyz_mask.tif_mask.tifImageDescriptionjunk"`,
recovery detects the `ImageDescription` marker, halves the 21-character
pre-marker text by character count (integer floor, giving the 10-character
prefix `"xyz_mask.t"` — on which the mask pattern itself does not complete),
and the recovery resolves the specimen key to `"xyz_mask.tif"` (via the
direct mask-pattern search on the full value). -/
theorem marker_example_resolves :
    containsSub (pyStrip "xyz_mask.tif_mask.tifImageDescriptionjunk".data)
        "ImageDescription".data = true ∧
    (beforeFirst (pyStrip "xyz_mask.tif_mask.tifImageDescriptionjunk".data)
          "ImageDescription".data).take
        ((beforeFirst (pyStrip "xyz_mask.tif_mask.tifImageDescriptionjunk".data)
            "ImageDescription".data).length / 2)
      = "xyz_mask.t".data ∧
    cleanFilename "xyz_mask.tif_mask.tifImageDescriptionjunk".data = "xyz_mask.tif".data := by
  decide

/-! ## Claim C4 (unrecoverable filename) -/

/-- C4, counterexample.  At row `{col: "hello"}` (no primary-identity
column, no scan token), the recovered row-level key is the bare `"unknown"`,
not the claimed `"unknown_" +` first 30 characters of the value. -/
theorem unrecoverable_key_counterexample :
    extractFilenameFromRow [("col".data, "hello".data)] = "unknown".data ∧
    "unknown".data ≠ "unknown_".data ++ ("hello".data).take 30 := by
  decide

/-- C4, amended.  (1) At row level: when no header starts with `1.` and no
scanned value both carries a mask/extension token and resolves to a
non-`unknown` key, `extractFilenameFromRow` returns the bare placeholder
`"unknown"`.  (2) It is `cleanFilename` that, when neither filename pattern
matches its (nonempty) input, returns `"unknown_"` followed by the first 30
characters of the *stripped* value. -/
theorem unrecoverable_key_spec :
    (∀ row : Row, (∀ kv ∈ row, "1.".data.isPrefixOf kv.1 = false) →
      (∀ kv ∈ row, (scanToken kv.2 && resolvesB kv.2) = false) →
      extractFilenameFromRow row = "unknown".data)
    ∧ (∀ v : List Char, v ≠ [] → search1 (pyStrip v) = none →
      search2 (pyStrip v) = none →
      cleanFilename v = "unknown_".data ++ (pyStrip v).take 30) := by
  constructor
  · intro row h1 h2
    simp only [extractFilenameFromRow]
    rw [List.find?_eq_none.mpr (fun kv hkv => by rw [h1 kv hkv]; simp)]
    rw [List.find?_eq_none.mpr (fun kv hkv => by rw [h2 kv hkv]; simp)]
  · intro v h0 hs1 hs2
    exact cleanFilename_eq_unknown h0 hs1 hs2

/-- C4, witness for the amended theorem: `cleanFilename "hi"` degrades to
`"unknown_hi"`, and the row `{col: "hello"}` degrades to `"unknown"`. -/
theorem unrecoverable_key_spec_witness :
    cleanFilename "hi".data = "unknown_".data ++ (pyStrip "hi".data).take 30 :=
  unrecoverable_key_spec.2 "hi".data (by decide) (by decide) (by decide)

/-! ## Claim C1 (RecordMerger) -/

theorem getF_mergeOne_none : ∀ (t : Table) (k : List Char) (m : Record),
    getF t k = none → getF (mergeOne t k m) k = some m := by
  intro t
  induction t with
  | nil => intro k m _; simp [mergeOne, getF]
  | cons kr rest ih =>
    intro k m h
    obtain ⟨k', r⟩ := kr
    by_cases hk : k' = k
    · simp [getF, hk] at h
    · simp only [mergeOne, if_neg hk]
      simp only [getF, if_neg hk] at h ⊢
      exact ih k m h

theorem getF_mergeOne_some : ∀ (t : Table) (k : List Char) (m r : Record),
    getF t k = some r → getF (mergeOne t k m) k = some (updateRec r m) := by
  intro t
  induction t with
  | nil => intro k m r h; simp [getF] at h
  | cons kr rest ih =>
    intro k m r h
    obtain ⟨k', r'⟩ := kr
    by_cases hk : k' = k
    · simp only [getF, if_pos hk] at h
      obtain rfl := Option.some.inj h
      simp [mergeOne, if_pos hk, getF]
    · simp only [getF, if_neg hk] at h
      simp only [mergeOne, if_neg hk, getF]
      exact ih k m r h

theorem getF_setF {α β : Type} [DecidableEq α] :
    ∀ (r : List (α × β)) (f : α) (v : β) (f' : α),
      getF (setF r f v) f' = if f = f' then some v else getF r f' := by
  intro r
  induction r with
  | nil => intro f v f'; rfl
  | cons kv rest ih =>
    intro f v f'
    obtain ⟨k', v'⟩ := kv
    by_cases hk : k' = f
    · subst hk
      simp only [setF, if_pos rfl, getF]
      by_cases hf : k' = f'
      · simp [hf]
      · simp [hf]
    · simp only [setF, if_neg hk, getF, ih]
      by_cases hf : k' = f'
      · have hff : ¬(f = f') := fun h => hk (hf.trans h.symm)
        simp [hf, hff]
      · simp [hf]

theorem getF_not_mem {α β : Type} [DecidableEq α] :
    ∀ (m : List (α × β)) (f : α), f ∉ m.map Prod.fst → getF m f = none := by
  intro m
  induction m with
  | nil => intro f _; rfl
  | cons kv rest ih =>
    intro f h
    obtain ⟨k', v'⟩ := kv
    simp only [List.map_cons, List.mem_cons] at h
    push_neg at h
    simp only [getF]
    rw [if_neg (fun he => h.1 he.symm)]
    exact ih f h.2

theorem getF_updateRec : ∀ (m r : Record) (f : String),
    (m.map Prod.fst).Nodup →
    getF (updateRec r m) f = (getF m f).or (getF r f) := by
  intro m
  induction m with
  | nil => intro r f _; simp [updateRec, getF, Option.none_or]
  | cons fv m' ih =>
    intro r f hnd
    obtain ⟨f0, v0⟩ := fv
    simp only [List.map_cons, List.nodup_cons] at hnd
    have step : updateRec r ((f0, v0) :: m') = updateRec (setF r f0 v0) m' := rfl
    rw [step, ih _ f hnd.2, getF_setF]
    by_cases hf : f0 = f
    · subst hf
      rw [getF_not_mem m' f0 hnd.1]
      simp [getF, Option.none_or]
    · simp [getF, hf]

/-- C1.  The merge of `main` (lines 138–143) over the per-file tables of
`processFracLacFile` (lines 213–224): a fresh key inserts the incoming
record; an existing key keeps its record and assigns the incoming fields
individually (incoming value wins per field, previously captured fields
survive); and the two concrete examples of the spec, where each partial
record carries `filename = key` as built by the row loop. -/
theorem recordMerger_merge_spec :
    (∀ (t : Table) (k : List Char) (m : Record),
        getF t k = none → getF (mergeOne t k m) k = some m)
    ∧ (∀ (t : Table) (k : List Char) (m r : Record),
        getF t k = some r → getF (mergeOne t k m) k = some (updateRec r m))
    ∧ (∀ (m r : Record) (f : String), (m.map Prod.fst).Nodup →
        getF (updateRec r m) f = (getF m f).or (getF r f))
    ∧ mergeOne (mergeOne [] "k".data [("filename", "k".data), ("a", "1".data)])
        "k".data [("filename", "k".data), ("b", "2".data)]
      = [("k".data, [("filename", "k".data), ("a", "1".data), ("b", "2".data)])]
    ∧ mergeOne (mergeOne [] "k".data [("filename", "k".data), ("a", "1".data)])
        "k".data [("filename", "k".data), ("a", "2".data)]
      = [("k".data, [("filename", "k".data), ("a", "2".data)])] :=
  ⟨getF_mergeOne_none, getF_mergeOne_some, getF_updateRec, by decide, by decide⟩

/-- C1, witness: fresh-key insertion and per-field overwrite evaluated at
concrete inputs. -/
theorem recordMerger_merge_spec_witness :
    getF (mergeOne [] "k2".data [("a", "7".data)]) "k2".data = some [("a", "7".data)] :=
  recordMerger_merge_spec.1 [] "k2".data [("a", "7".data)] (by decide)

/-! ## Claim C5 (average branch length) -/

/-- C5, counterexample.  When the analyzer's average-branch-length getter
*returns no value* (`None`/empty array) — a case in which no analyzer value is
obtainable — the code assigns `0.0`, not the claimed fallback
`(slab-voxel count × scale) / branch count` (which is `5` here). -/
theorem avgBranchLength_counterexample :
    avgBranchLength (.ok none) 4 40 (1/2) ≠ ((40 : ℚ) * (1 / 2)) / 4 := by
  norm_num [avgBranchLength]

/-- C5, amended.  The assembled average branch length equals the
analyzer-reported value when the getter returns one; `0` when the getter
returns none; and, only when the getter *raises*, the fallback
`(slab-voxel count × scale) / branch count` if both branch count and
slab-voxel count are positive, else `0`.  On the raising path with
`numBranches = 4`, `numSlabVoxels = 40`, `scale = 0.5`, the fallback is
`5.0`. -/
theorem avgBranchLength_spec :
    (∀ (nb ns : ℕ) (sc v : ℚ), avgBranchLength (.ok (some v)) nb ns sc = v)
    ∧ (∀ (nb ns : ℕ) (sc : ℚ), avgBranchLength (.ok none) nb ns sc = 0)
    ∧ (∀ (nb ns : ℕ) (sc : ℚ), 0 < nb → 0 < ns →
        avgBranchLength (.error ()) nb ns sc = ((ns : ℚ) * sc) / (nb : ℚ))
    ∧ (∀ (nb ns : ℕ) (sc : ℚ), nb = 0 ∨ ns = 0 →
        avgBranchLength (.error ()) nb ns sc = 0)
    ∧ avgBranchLength (.error ()) 4 40 (1 / 2) = 5 := by
  refine ⟨fun nb ns sc v => rfl, fun nb ns sc => rfl, ?_, ?_, ?_⟩
  · intro nb ns sc h1 h2
    simp [avgBranchLength, h1, h2]
  · intro nb ns sc h
    rcases h with h | h <;> simp [avgBranchLength, h]
  · norm_num [avgBranchLength]

/-- C5, witness for the raising-path fallback at `nb = 2`, `ns = 10`,
`scale = 1/2`. -/
theorem avgBranchLength_spec_witness :
    avgBranchLength (.error ()) 2 10 (1 / 2) = (((10 : ℕ) : ℚ) * (1 / 2)) / ((2 : ℕ) : ℚ) :=
  avgBranchLength_spec.2.2.1 2 10 (1 / 2) (by norm_num) (by norm_num)

/-! ## Claim C6 (per-file read failure) -/

/-- C6, counterexample.  A file whose reading raises *after* one row was
read (`failed = true`) still contributes that row: merging its table into the
empty global table does not leave the table unchanged. -/
theorem failing_file_contributes_rows :
    mergeFolder [] (processFracLacFile ["1.File".data]
      [[("1.File".data, "a_mask.tif".data)]] true) ≠ [] := by
  decide

/-- C6, amended.  A per-file read failure is recovered (the handler
returns the accumulated table and the run continues), but the file
contributes exactly the rows read before the failure: the outcome is
identical whether or not the reader raised after those rows, it is empty only
when the failure precedes the first row (e.g. at `open`), and the fold of
`main` keeps processing each further folder's table. -/
theorem perFileFailure_spec :
    (∀ (fns : List (List Char)) (rows : List Row),
        processFracLacFile fns rows true = processFracLacFile fns rows false)
    ∧ (∀ fns : List (List Char), processFracLacFile fns [] true = [])
    ∧ (∀ (ds : List Table) (d : Table),
        combineAll (ds ++ [d]) = mergeFolder (combineAll ds) d) := by
  refine ⟨fun fns rows => rfl, fun fns => rfl, fun ds d => ?_⟩
  simp [combineAll, List.foldl_append]

/-! ## Claim C8 (branching density guard) -/

/-- C8.  Branching density is `skeletonArea / maskArea` whenever
`maskArea > 0`, and exactly `0` at `maskArea = 0` for every skeleton area —
the division is never evaluated with a zero denominator. -/
theorem branchingDensity_guard :
    (∀ skeletonArea maskArea : ℚ, 0 < maskArea →
        branchingDensity skeletonArea maskArea = skeletonArea / maskArea)
    ∧ (∀ skeletonArea : ℚ, branchingDensity skeletonArea 0 = 0) := by
  constructor
  · intro s m h; simp [branchingDensity, h]
  · intro s; simp [branchingDensity]

/-- C8, witness at `skeletonArea = 3`, `maskArea = 2`. -/
theorem branchingDensity_guard_witness :
    branchingDensity 3 2 = 3 / 2 :=
  branchingDensity_guard.1 3 2 (by norm_num)

/-! ## Claim C9 (cell-name stripping) -/

/-- C9, counterexample.  On `"x_mask_area345_mask.tif"` the spec's plain
cascade (rule 1, else rule 2, else rule 3) yields `"x_mask"`, but the code's
extra `endswith('_mask')` check discards that and re-strips only
`_mask.tif` from the original name, yielding `"x_mask_area345"`. -/
theorem cellName_cascade_counterexample :
    specCellName "x_mask_area345_mask.tif".data = "x_mask".data ∧
    cellName "x_mask_area345_mask.tif".data = "x_mask_area345".data ∧
    cellName "x_mask_area345_mask.tif".data ≠
      specCellName "x_mask_area345_mask.tif".data := by
  decide

/-- C9, amended.  The three concrete examples of the spec hold; a
filename matched by no rule is returned unchanged; but when an area-rule
result still ends in `_mask`, the code falls back to stripping only
`_mask.tif` from the original filename. -/
theorem cellName_spec :
    cellName "sample1_area455_mask.tif".data = "sample1".data
    ∧ cellName "sample2_mask.tif".data = "sample2".data
    ∧ cellName "plainfile.tif".data = "plainfile.tif".data
    ∧ (∀ b : List Char, subSuffix areaSuffix1 b = b → subSuffix areaSuffix2 b = b →
        subSuffix maskTifSuffix b = b → cellName b = b)
    ∧ (∀ (b n : List Char), subSuffix areaSuffix1 b = n → n ≠ b →
        pyEndsWith n "_mask".data = true →
        cellName b = subSuffix maskTifSuffix b)
    ∧ (∀ (b n : List Char), subSuffix areaSuffix1 b = b → subSuffix areaSuffix2 b = n →
        n ≠ b → pyEndsWith n "_mask".data = true →
        cellName b = subSuffix maskTifSuffix b) := by
  refine ⟨by decide, by decide, by decide, ?_, ?_, ?_⟩
  · intro b h1 h2 h3
    simp only [cellName]
    rw [h1, if_pos rfl, h2]
    rw [if_pos (Or.inl rfl)]
    exact h3
  · intro b n h1 hne hend
    simp only [cellName]
    rw [h1, if_neg hne]
    rw [if_pos (Or.inr hend)]
  · intro b n h1 h2 hne hend
    simp only [cellName]
    rw [h1, if_pos rfl, h2]
    rw [if_pos (Or.inr hend)]

/-- C9, witness for the `endswith('_mask')` override at the concrete
input `"x_mask_area345_mask.tif"`. -/
theorem cellName_spec_witness :
    cellName "x_mask_area345_mask.tif".data =
      subSuffix maskTifSuffix "x_mask_area345_mask.tif".data :=
  cellName_spec.2.2.2.2.1 "x_mask_area345_mask.tif".data "x_mask".data
    (by decide) (by decide) (by decide)

/-! ## Claim C2 (ColumnMapper) -/

theorem isPrefixOf_ex : ∀ (p c : List Char), p.isPrefixOf c = true ↔ ∃ r, c = p ++ r := by
  intro p
  induction p with
  | nil =>
    intro c
    simp only [List.isPrefixOf, List.nil_append]
    exact ⟨fun _ => ⟨c, rfl⟩, fun _ => trivial⟩
  | cons a p' ih =>
    intro c
    cases c with
    | nil =>
      simp only [List.isPrefixOf, List.cons_append]
      constructor
      · intro h; cases h
      · rintro ⟨r, h⟩; cases h
    | cons b c' =>
      simp only [List.isPrefixOf, Bool.and_eq_true, beq_iff_eq, List.cons_append]
      constructor
      · rintro ⟨rfl, h⟩
        obtain ⟨r, rfl⟩ := (ih c').mp h
        exact ⟨r, rfl⟩
      · rintro ⟨r, h⟩
        obtain ⟨rfl, rfl⟩ := List.cons.inj h
        exact ⟨rfl, (ih _).mpr ⟨r, rfl⟩⟩

theorem patterns_comparable {p q c : List Char} (hp : p.isPrefixOf c = true)
    (hq : q.isPrefixOf c = true) (hlen : p.length ≤ q.length) :
    p.isPrefixOf q = true := by
  obtain ⟨r, hr⟩ := (isPrefixOf_ex p c).mp hp
  obtain ⟨s, hs⟩ := (isPrefixOf_ex q c).mp hq
  apply (isPrefixOf_ex p q).mpr
  refine ⟨q.drop p.length, ?_⟩
  have h1 : c.take p.length = p := by rw [hr, List.take_left]
  have h2 : c.take p.length = q.take p.length := by
    rw [hs, List.take_append_of_le_length hlen]
  conv_lhs => rw [← List.take_append_drop p.length q]
  rw [← h2, h1]

/-- No header can extend two distinct patterns of the fixed `column_map`
(the seventeen declared prefixes are pairwise non-comparable). -/
theorem pattern_unique {p q c : List Char} {n n' : String}
    (hp : (p, n) ∈ columnMap) (hq : (q, n') ∈ columnMap)
    (hpc : p.isPrefixOf c = true) (hqc : q.isPrefixOf c = true) : p = q := by
  have H : ∀ pn ∈ columnMap, ∀ qn ∈ columnMap,
      pn.1 = qn.1 ∨ pn.1.isPrefixOf qn.1 = false := by decide
  rcases Nat.le_total p.length q.length with hle | hle
  · rcases H _ hp _ hq with heq | hno
    · exact heq
    · have := patterns_comparable hpc hqc hle
      rw [this] at hno; cases hno
  · rcases H _ hq _ hp with heq | hno
    · exact heq.symm
    · have := patterns_comparable hqc hpc hle
      rw [this] at hno; cases hno

theorem columnMap_fst_inj {p : List Char} {n n' : String}
    (h1 : (p, n) ∈ columnMap) (h2 : (p, n') ∈ columnMap) : n = n' := by
  have H : ∀ pn ∈ columnMap, ∀ qn ∈ columnMap, pn.1 = qn.1 → pn = qn := by decide
  have := H _ h1 _ h2 rfl
  exact congrArg Prod.snd this

theorem columnMap_snd_inj {p q : List Char} {n : String}
    (h1 : (p, n) ∈ columnMap) (h2 : (q, n) ∈ columnMap) : (p, n) = (q, n) := by
  have H : ∀ pn ∈ columnMap, ∀ qn ∈ columnMap, pn.2 = qn.2 → pn = qn := by decide
  exact H _ h1 _ h2 rfl

theorem setF_append_of_fresh {α β : Type} [DecidableEq α] :
    ∀ (l : List (α × β)) (k : α) (v : β), k ∉ l.map Prod.fst →
      setF l k v = l ++ [(k, v)] := by
  intro l
  induction l with
  | nil => intro k v _; rfl
  | cons kv rest ih =>
    intro k v h
    obtain ⟨k', v'⟩ := kv
    simp only [List.map_cons, List.mem_cons] at h
    push_neg at h
    simp only [setF, List.cons_append]
    rw [if_neg (fun he => h.1 he.symm), ih k v h.2]

theorem nodup_concat {α : Type} {l : List α} {a : α} (h : l.Nodup) (ha : a ∉ l) :
    (l ++ [a]).Nodup := by
  rw [List.nodup_append]
  refine ⟨h, List.nodup_singleton a, ?_⟩
  intro x hx hxa
  rw [List.mem_singleton] at hxa
  exact ha (hxa ▸ hx)

theorem buildColumns_invariant (fns : List (List Char)) :
    ∀ rest : List (List Char × String), rest.Sublist columnMap →
    ∀ acc : List (List Char × String),
      (∀ cn ∈ acc, ∃ p, (p, cn.2) ∈ columnMap ∧ (p, cn.2) ∉ rest ∧
        p.isPrefixOf cn.1 = true) →
      (acc.map Prod.fst).Nodup → (acc.map Prod.snd).Nodup →
      buildColumns fns acc rest = bindingEvents fns acc rest
      ∧ ((bindingEvents fns acc rest).map Prod.fst).Nodup
      ∧ ((bindingEvents fns acc rest).map Prod.snd).Nodup
      ∧ (∀ cn ∈ bindingEvents fns acc rest, ∃ p, (p, cn.2) ∈ columnMap ∧
          p.isPrefixOf cn.1 = true) := by
  have hcmNodup : columnMap.Nodup :=
    List.Nodup.of_map Prod.fst (by decide)
  intro rest
  induction rest with
  | nil =>
    intro _ acc hInv h1 h2
    exact ⟨rfl, h1, h2, fun cn hcn => by
      obtain ⟨p, hp, -, hpref⟩ := hInv cn hcn
      exact ⟨p, hp, hpref⟩⟩
  | cons pn rest' ih =>
    intro hsub acc hInv h1 h2
    obtain ⟨p, n⟩ := pn
    have hsub' : rest'.Sublist columnMap :=
      (List.sublist_cons_self (p, n) rest').trans hsub
    have hpn_mem : (p, n) ∈ columnMap := hsub.subset (List.mem_cons_self _ _)
    have hpn_not : (p, n) ∉ rest' :=
      (List.nodup_cons.mp (hsub.nodup hcmNodup)).1
    cases hfind : fns.find? (fun col => p.isPrefixOf col) with
    | none =>
      simp only [buildColumns, bindingEvents, hfind]
      exact ih hsub' acc
        (fun cn hcn => by
          obtain ⟨p', hm, hnot, hpref⟩ := hInv cn hcn
          exact ⟨p', hm, fun hin => hnot (List.mem_cons_of_mem _ hin), hpref⟩)
        h1 h2
    | some col =>
      simp only [buildColumns, bindingEvents, hfind]
      have hcolp : p.isPrefixOf col = true := by
        have := List.find?_some hfind
        simpa using this
      have hcol_fresh : col ∉ acc.map Prod.fst := by
        intro hin
        obtain ⟨cn, hcn, hfst⟩ := List.mem_map.mp hin
        obtain ⟨p', hp'mem, hp'not, hp'pref⟩ := hInv cn hcn
        have hpp : p' = p :=
          pattern_unique hp'mem hpn_mem (by rw [hfst] at hp'pref; exact hp'pref) hcolp
        subst hpp
        have hnn : cn.2 = n := columnMap_fst_inj hp'mem hpn_mem
        rw [hnn] at hp'not
        exact hp'not (List.mem_cons_self _ _)
      have hname_fresh : n ∉ acc.map Prod.snd := by
        intro hin
        obtain ⟨cn, hcn, hsnd⟩ := List.mem_map.mp hin
        obtain ⟨p', hp'mem, hp'not, -⟩ := hInv cn hcn
        rw [hsnd] at hp'mem hp'not
        have heq : (p', n) = (p, n) := columnMap_snd_inj hp'mem hpn_mem
        rw [heq] at hp'not
        exact hp'not (List.mem_cons_self _ _)
      rw [setF_append_of_fresh acc col n hcol_fresh]
      apply ih hsub' (acc ++ [(col, n)])
      · intro cn hcn
        rcases List.mem_append.mp hcn with hold | hnew
        · obtain ⟨p', hm, hnot, hpref⟩ := hInv cn hold
          exact ⟨p', hm, fun hin => hnot (List.mem_cons_of_mem _ hin), hpref⟩
        · rw [List.mem_singleton] at hnew
          subst hnew
          exact ⟨p, hpn_mem, hpn_not, hcolp⟩
      · rw [List.map_append]
        exact nodup_concat h1 hcol_fresh
      · rw [List.map_append]
        exact nodup_concat h2 hname_fresh

/-- C2.  For every header list, the `actualColumns` construction (with
dictionary assignment) coincides with the plain sequence of binding events —
no raw header is ever rebound — and in the result no raw header carries two
canonical names, no canonical name is carried by two raw headers, and every
bound header extends the pattern declared for its canonical name. -/
theorem columnMapper_no_double_binding (fns : List (List Char)) :
    actualColumns fns = bindingEvents fns [] columnMap
    ∧ ((actualColumns fns).map Prod.fst).Nodup
    ∧ ((actualColumns fns).map Prod.snd).Nodup
    ∧ (∀ cn ∈ actualColumns fns, ∃ p, (p, cn.2) ∈ columnMap ∧
        p.isPrefixOf cn.1 = true) := by
  obtain ⟨heq, h1, h2, h3⟩ := buildColumns_invariant fns columnMap (List.Sublist.refl _) []
    (fun cn hcn => absurd hcn (List.not_mem_nil cn)) List.nodup_nil List.nodup_nil
  have hact : actualColumns fns = buildColumns fns [] columnMap := rfl
  rw [hact, heq]
  exact ⟨rfl, h1, h2, h3⟩

/-! ## Claim C10 (output row order) -/

theorem char_eq_of_toNat_eq {a b : Char} (h : a.toNat = b.toNat) : a = b :=
  Char.eq_of_val_eq (UInt32.toNat.inj h)

theorem lexLe_total : ∀ a b : List Char, lexLe a b = true ∨ lexLe b a = true := by
  intro a
  induction a with
  | nil => intro b; left; rfl
  | cons x s ih =>
    intro b
    cases b with
    | nil => right; rfl
    | cons y t =>
      by_cases hxy : x = y
      · subst hxy
        simp only [lexLe, if_pos rfl]
        exact ih t
      · simp only [lexLe, if_neg hxy, if_neg (Ne.symm hxy)]
        have hne : x.toNat ≠ y.toNat := fun h => hxy (char_eq_of_toNat_eq h)
        rcases Nat.lt_or_ge x.toNat y.toNat with h | h
        · exact Or.inl (decide_eq_true h)
        · exact Or.inr (decide_eq_true (by omega))

theorem lexLe_trans : ∀ a b c : List Char,
    lexLe a b = true → lexLe b c = true → lexLe a c = true := by
  intro a
  induction a with
  | nil => intro b c _ _; rfl
  | cons x s ih =>
    intro b c hab hbc
    cases b with
    | nil => simp [lexLe] at hab
    | cons y t =>
      cases c with
      | nil => simp [lexLe] at hbc
      | cons z u =>
        by_cases hxy : x = y
        · subst hxy
          by_cases hyz : x = z
          · subst hyz
            simp only [lexLe, if_pos rfl] at hab hbc ⊢
            exact ih t u hab hbc
          · simp only [lexLe, if_pos rfl, if_neg hyz] at hab hbc ⊢
            exact hbc
        · by_cases hyz : y = z
          · subst hyz
            simp only [lexLe, if_neg hxy] at hab ⊢
            exact hab
          · simp only [lexLe, if_neg hxy, if_neg hyz] at hab hbc
            have h1 : x.toNat < y.toNat := of_decide_eq_true hab
            have h2 : y.toNat < z.toNat := of_decide_eq_true hbc
            by_cases hxz : x = z
            · subst hxz; omega
            · simp only [lexLe, if_neg hxz]
              exact decide_eq_true (by omega)

theorem lexLe_antisymm : ∀ a b : List Char,
    lexLe a b = true → lexLe b a = true → a = b := by
  intro a
  induction a with
  | nil =>
    intro b _ hba
    cases b with
    | nil => rfl
    | cons y t => simp [lexLe] at hba
  | cons x s ih =>
    intro b hab hba
    cases b with
    | nil => simp [lexLe] at hab
    | cons y t =>
      by_cases hxy : x = y
      · subst hxy
        simp only [lexLe, if_pos rfl] at hab hba
        rw [ih t hab hba]
      · simp only [lexLe, if_neg hxy, if_neg (Ne.symm hxy)] at hab hba
        have h1 : x.toNat < y.toNat := of_decide_eq_true hab
        have h2 : y.toNat < x.toNat := of_decide_eq_true hba
        omega

/-- Python's string order as a relation. -/
def lexR (a b : List Char) : Prop := lexLe a b = true

instance : DecidableRel lexR := fun _ _ => inferInstanceAs (Decidable (_ = true))

instance : IsTotal (List Char) lexR := ⟨lexLe_total⟩

instance : IsTrans (List Char) lexR := ⟨lexLe_trans⟩

instance : IsAntisymm (List Char) lexR := ⟨lexLe_antisymm⟩

theorem insertKey_perm (x : List Char) :
    ∀ l : List (List Char), (insertKey x l).Perm (x :: l) := by
  intro l
  induction l with
  | nil => exact List.Perm.refl _
  | cons y rest ih =>
    simp only [insertKey]
    by_cases h : lexLe x y
    · rw [if_pos h]
    · rw [if_neg h]
      exact (ih.cons y).trans (List.Perm.swap x y rest)

theorem sortKeys_perm : ∀ l : List (List Char), (sortKeys l).Perm l := by
  intro l
  induction l with
  | nil => exact List.Perm.refl _
  | cons x rest ih =>
    exact (insertKey_perm x (sortKeys rest)).trans (ih.cons x)

theorem insertKey_sorted (x : List Char) :
    ∀ l : List (List Char), l.Sorted lexR → (insertKey x l).Sorted lexR := by
  intro l
  induction l with
  | nil => intro _; simp [insertKey]
  | cons y rest ih =>
    intro h
    obtain ⟨hy, hrest⟩ := List.sorted_cons.mp h
    simp only [insertKey]
    by_cases hxy : lexLe x y
    · rw [if_pos hxy]
      refine List.sorted_cons.mpr ⟨?_, h⟩
      intro b hb
      rcases List.mem_cons.mp hb with rfl | hb'
      · exact hxy
      · exact lexLe_trans x y b hxy (hy b hb')
    · rw [if_neg hxy]
      refine List.sorted_cons.mpr ⟨?_, ih hrest⟩
      intro b hb
      have hb2 : b ∈ x :: rest := (insertKey_perm x rest).mem_iff.mp hb
      rcases List.mem_cons.mp hb2 with rfl | hb'
      · rcases lexLe_total b y with h | h
        · exact absurd h hxy
        · exact h
      · exact hy b hb'

theorem sortKeys_sorted : ∀ l : List (List Char), (sortKeys l).Sorted lexR := by
  intro l
  induction l with
  | nil => simp [sortKeys]
  | cons x rest ih => exact insertKey_sorted x (sortKeys rest) ih

/-- C10.  The combined CSV's rows are written in sorted key order
(`for filename in sorted(allData.keys())`): the emitted key sequence is
`lexLe`-sorted, and it depends only on the final key multiset of the global
table — two tables whose key lists are permutations of one another (e.g.
built from folders enumerated in different orders) produce the same row
order. -/
theorem outputRowOrder_spec :
    (∀ t : Table, (outputRowOrder t).Sorted lexR)
    ∧ (∀ t₁ t₂ : Table, (t₁.map Prod.fst).Perm (t₂.map Prod.fst) →
        outputRowOrder t₁ = outputRowOrder t₂) := by
  constructor
  · intro t; exact sortKeys_sorted _
  · intro t₁ t₂ hperm
    exact List.eq_of_perm_of_sorted
      ((sortKeys_perm _).trans (hperm.trans (sortKeys_perm _).symm))
      (sortKeys_sorted _) (sortKeys_sorted _)

/-- C10, witness: two tables with the same keys in opposite insertion
order produce the same (sorted) row order. -/
theorem outputRowOrder_spec_witness :
    outputRowOrder [("b".data, []), ("a".data, [])]
      = outputRowOrder [("a".data, []), ("b".data, [])] :=
  outputRowOrder_spec.2 [("b".data, []), ("a".data, [])]
    [("a".data, []), ("b".data, [])] (by decide)

end FracLac
